import Mathlib

/-!
Verification of the diff application and edit-position resolution engine
(`EditPositionTracker.ts` / `applyDiffTool.ts`).

Strings are embedded as lists of characters (`Str`).  JavaScript's
`String.prototype.split("\n")`, `slice`, `indexOf`, `trim`, `trimStart`,
`trimEnd` and `String.prototype.replace` with a global regular expression
built from an escaped literal pattern are modelled character by character.
Loops of the source are modelled either structurally or with an explicit
fuel argument large enough for every terminating run, so that every
definition evaluates by kernel reduction.
-/

abbrev Str := List Char

def strL (s : String) : Str := s.data

/-- JS `text.split("\n")`: split into lines at every newline character.
`"".split("\n")` is `[""]`. -/
def splitNl : Str → List Str
  | [] => [[]]
  | c :: rest =>
    let r := splitNl rest
    if c = '\n' then [] :: r
    else
      match r with
      | [] => [[c]]
      | h :: t => (c :: h) :: t

/-- JS `lines.join("\n")`. -/
def joinNl : List Str → Str
  | [] => []
  | [l] => l
  | l :: rest => l ++ '\n' :: joinNl rest

/-- Whitespace characters recognised by JS `trim` (the common ASCII ones). -/
def isWsChar (c : Char) : Bool :=
  c = ' ' ∨ c = '\t' ∨ c = '\n' ∨ c = '\r' ∨ c = Char.ofNat 11 ∨ c = Char.ofNat 12

/-- JS `s.trimStart()`. -/
def trimStartL (s : Str) : Str := s.dropWhile isWsChar

/-- JS `s.trimEnd()`. -/
def trimEndL (s : Str) : Str := (s.reverse.dropWhile isWsChar).reverse

/-- JS `s.trim()`. -/
def trimL (s : Str) : Str := trimEndL (trimStartL s)

/-- Source: `replaceFirstLine.length - replaceFirstLine.trimStart().length`. -/
def leadingWsLen (s : Str) : Nat := s.length - (trimStartL s).length

/-- JS `hay.indexOf(needle)` (as an option instead of `-1`):
first index at which `needle` occurs in `hay`; `indexOf("")` is `0`. -/
def indexOfSub? (hay needle : Str) : Option Nat :=
  if needle.isPrefixOf hay then some 0
  else
    match hay with
    | [] => none
    | _ :: t => (indexOfSub? t needle).map (· + 1)

/-- JS `Array.prototype.slice(s, e)` index normalisation and extraction
(negative indices count from the end, both ends clamped). -/
def jsSlice (l : List α) (s e : Int) : List α :=
  let len : Int := l.length
  let s1 : Nat := (if s < 0 then max (len + s) 0 else min s len).toNat
  let e1 : Nat := (if e < 0 then max (len + e) 0 else min e len).toNat
  (l.take e1).drop s1

/-- JS one-argument `slice(s)`. -/
def jsSliceFrom (l : List α) (s : Int) : List α := jsSlice l s l.length

def mapIdxGo (f : Nat → α → β) : Nat → List α → List β
  | _, [] => []
  | i, a :: rest => f i a :: mapIdxGo f (i + 1) rest

/-- JS `Array.prototype.map((x, i) => ...)`. -/
def mapWithIndex (f : Nat → α → β) (l : List α) : List β := mapIdxGo f 0 l

/-- ECMAScript `GetSubstitution` for a string replacement with a regex that
has no capture groups (the compiled escaped-literal pattern has none):
`$$` is a dollar sign, `$&` the matched text, `` $` `` the part of the
original string before the match, `$'` the part after it; `$` followed by
anything else (including digits, as there are no groups) is literal. -/
def getSubstitution (matched before after : Str) (s : Str) : Str :=
  match s with
  | [] => []
  | c :: rest =>
    if c = '$' then
      match rest with
      | [] => [c]
      | d :: rest2 =>
        if d = '$' then d :: getSubstitution matched before after rest2
        else if d = '&' then matched ++ getSubstitution matched before after rest2
        else if d = Char.ofNat 96 then before ++ getSubstitution matched before after rest2
        else if d = Char.ofNat 39 then after ++ getSubstitution matched before after rest2
        else c :: d :: getSubstitution matched before after rest2
    else c :: getSubstitution matched before after rest

/-- One pass of JS `text.replace(new RegExp(escapeRegExp(pat), "g"), repl)`:
scan left to right, at each position replace an occurrence of the literal
pattern (running the replacement string through `GetSubstitution`) and
continue after it, otherwise copy one character.  An empty pattern matches
(zero length) at every position, as it does in JS.  `before` accumulates
the consumed original prefix; `fuel` bounds the recursion and
`s.length + 1` always suffices. -/
def replaceFuel (pat repl : Str) : Nat → Str → Str → Str
  | 0, _, _ => []
  | fuel + 1, before, s =>
    if pat ≠ [] ∧ pat.isPrefixOf s ∧ s ≠ [] then
      getSubstitution pat before (s.drop pat.length) repl
        ++ replaceFuel pat repl fuel (before ++ pat) (s.drop pat.length)
    else
      match s with
      | [] => if pat = [] then getSubstitution [] before [] repl else []
      | c :: rest =>
        if pat = [] then
          getSubstitution [] before s repl ++ c :: replaceFuel pat repl fuel (before ++ [c]) rest
        else c :: replaceFuel pat repl fuel (before ++ [c]) rest

/-- Source (`EditPositionTracker.ts` line 274): global replacement
`fileContent.replace(searchPattern, validReplace)` for the literal
(escaped) pattern. -/
def jsReplaceAll (pat repl s : Str) : Str := replaceFuel pat repl (s.length + 1) [] s

/-- Modelled from the spec: "replacing every non-overlapping occurrence of
the escaped P with R, left to right in one pass" — identical scan, but the
replacement string is inserted verbatim. -/
def specReplaceFuel (pat repl : Str) : Nat → Str → Str
  | 0, _ => []
  | fuel + 1, s =>
    if pat ≠ [] ∧ pat.isPrefixOf s ∧ s ≠ [] then
      repl ++ specReplaceFuel pat repl fuel (s.drop pat.length)
    else
      match s with
      | [] => if pat = [] then repl else []
      | c :: rest =>
        if pat = [] then repl ++ c :: specReplaceFuel pat repl fuel rest
        else c :: specReplaceFuel pat repl fuel rest

def specLiteralReplace (pat repl s : Str) : Str := specReplaceFuel pat repl (s.length + 1) s

/-- Source `escapeRegExp` (`EditPositionTracker.ts` lines 527-529):
`input.replace(/[.*+?^${}()|[\]\\]/g, "\\$&")`. -/
def escapeRegExp (input : Str) : Str :=
  input.flatMap fun c =>
    if c ∈ ['.', '*', '+', '?', '^', '$', Char.ofNat 123, Char.ofNat 125,
            '(', ')', '|', '[', ']', '\\'] then ['\\', c]
    else [c]

/-- Source `EditPositionTracker.ts` lines 239-271: the line/column bounded
replacement, producing the processed list of lines
(`beforeLines ++ modifiedLines ++ afterLines`). -/
def boundedReplaceLines (lines : List Str) (pat repl : Str)
    (sb eb scB ecB : Option Int) : List Str :=
  let len : Int := lines.length
  let start : Int := max ((sb.getD 1) - 1) 0
  let endI : Int := min ((eb.getD len) - 1) (len - 1)
  let beforeLines := jsSlice lines 0 start
  let afterLines := jsSliceFrom lines (endI + 1)
  let targetLines := jsSlice lines start (endI + 1)
  let modifiedLines := mapWithIndex (fun lineIndex line =>
    let actualLineIndex : Int := start + lineIndex
    if actualLineIndex ≥ start ∧ actualLineIndex ≤ endI then
      if scB.isSome ∨ ecB.isSome then
        let lineStart : Int := max ((scB.getD 1) - 1) 0
        let lineEnd : Int := min ((ecB.getD line.length) - 1) ((line.length : Int) - 1)
        if lineStart < lineEnd then
          jsSlice line 0 lineStart
            ++ jsReplaceAll pat repl (jsSlice line lineStart (lineEnd + 1))
            ++ jsSliceFrom line (lineEnd + 1)
        else line
      else line
    else line) targetLines
  beforeLines ++ modifiedLines ++ afterLines

/-- Source `EditPositionTracker.ts` lines 236-275: `newContent` — the
bounded branch when any line/column bound is given, otherwise the global
replacement. -/
def computeNewContent (text pat repl : Str) (sb eb scB ecB : Option Int) : Str :=
  if sb.isSome ∨ eb.isSome ∨ scB.isSome ∨ ecB.isSome then
    joinNl (boundedReplaceLines (splitNl text) pat repl sb eb scB ecB)
  else jsReplaceAll pat repl text

/-- The coordinates stored in `lastMatchPosition`
(`EditPositionTracker.ts` lines 340-345). -/
structure MatchPos where
  startLine : Int
  endLine : Int
  startColumn : Int
  endColumn : Int
deriving DecidableEq, Repr

/-- The mutable state of the `while ((match = searchRegex.exec(...)))` loop:
the regex `lastIndex`, the qualifying-match counter and the last stored
match position. -/
structure ScanState where
  lastIndex : Nat
  matchCount : Nat
  last : Option MatchPos
deriving DecidableEq, Repr

/-- A regex `exec` step: given the text and the regex `lastIndex`, return
the next match as `(index, length)` or `none`.  The source delegates this
to the JS `RegExp` engine; it is instantiated below for the pattern shapes
the claims exercise. -/
abbrev Exec := Str → Nat → Option (Nat × Nat)

/-- `exec` of the global regex compiled from an escaped literal pattern:
the first occurrence of the literal at an index `≥ lastIndex`. -/
def execLiteral (pat : Str) : Exec := fun text lastIndex =>
  if lastIndex > text.length then none
  else (indexOfSub? (text.drop lastIndex) pat).map fun i => (lastIndex + i, pat.length)

/-- `exec` of a global regex of the form `c*`: it matches at `lastIndex`
itself (possibly with zero length), greedily taking the run of `c`s. -/
def execStar (c : Char) : Exec := fun text lastIndex =>
  if lastIndex > text.length then none
  else some (lastIndex, ((text.drop lastIndex).takeWhile (fun a => a = c)).length)

/-- Source lines 359-367: walk the lines to find the 0-based line index and
1-based column of offset `matchStart`; `none` means the `for` loop ran to
the end without hitting its `break`. -/
def findLineColAux : List Str → Nat → Nat → Nat → Option (Nat × Int)
  | [], _, _, _ => none
  | l :: rest, i, charCount, m =>
    if charCount + (l.length + 1) > m then some (i, (m : Int) - (charCount : Int) + 1)
    else findLineColAux rest (i + 1) (charCount + l.length + 1) m

/-- Source lines 355-367: `startLineIndex` and `startColumn` keep their
initial values `0` and `matchStart + 1` when the loop never breaks. -/
def findLineCol (lines : List Str) (m : Nat) : Nat × Int :=
  (findLineColAux lines 0 0 m).getD (0, (m : Int) + 1)

/-- Source lines 378-393: the `while (remainingLength > 0 && ...)` walk
locating the end of a (possibly multi-line) match; `none` means the loop
ended without its `break`, leaving the initial values in place. -/
def endWalkAux : List Str → Int → Nat → Int → Option (Nat × Int)
  | [], _, _, _ => none
  | l :: rest, remainingLength, curLine, curCol =>
    if remainingLength > 0 then
      let available : Int := (l.length : Int) - curCol + 1
      if remainingLength ≤ available then some (curLine, curCol + remainingLength - 1)
      else endWalkAux rest (remainingLength - available) (curLine + 1) 1
    else none

/-- Source lines 369-393: end line/column of the match starting at line
`sli`, column `scol`, with `len` characters; initial values
`(sli, scol + len - 1)` survive when the walk does not break. -/
def endWalk (lines : List Str) (len : Int) (sli : Nat) (scol : Int) : Nat × Int :=
  (endWalkAux (lines.drop sli) len sli scol).getD (sli, scol + len - 1)

/-- One iteration of the `while` loop at source lines 349-438.  `sb`/`eb`
are the requested `startLine`/`endLine` bounds.  The requested column
bounds never appear: the source's `withinColumnRange` check (lines
406-419) reads the loop-local `startColumn`/`endColumn` variables, which
shadow the request parameters, so it compares each value with itself. -/
def scanStep (ex : Exec) (text : Str) (lines : List Str) (sb eb : Option Int)
    (st : ScanState) : Option ScanState :=
  match ex text st.lastIndex with
  | none => none
  | some (mIdx, mLen) =>
    let p1 := findLineCol lines mIdx
    let p2 := endWalk lines (mLen : Int) p1.1 p1.2
    let startLineNumber : Int := (p1.1 : Int) + 1
    let endLineNumber : Int := (p2.1 : Int) + 1
    let withinLineRange : Bool :=
      sb.isNone || eb.isNone ||
        (decide (startLineNumber ≥ sb.getD 0) && decide (endLineNumber ≤ eb.getD 0))
    let withinColumnRange : Bool :=
      if startLineNumber = endLineNumber then
        decide (p1.2 ≥ p1.2) && decide (p2.2 ≤ p2.2)
      else decide (p1.2 ≥ p1.2)
    if withinLineRange && withinColumnRange then
      some { lastIndex := if mLen = 0 then mIdx + mLen + 1 else mIdx + mLen,
             matchCount := st.matchCount + 1,
             last := some ⟨startLineNumber, endLineNumber, p1.2, p2.2⟩ }
    else some { st with lastIndex := mIdx + mLen }

/-- The `while` loop, with fuel; every terminating run of the source loop
is reproduced by `text.length + 2` iterations. -/
def scanLoop (ex : Exec) (text : Str) (lines : List Str) (sb eb : Option Int) :
    Nat → ScanState → ScanState
  | 0, st => st
  | fuel + 1, st =>
    match scanStep ex text lines sb eb st with
    | none => st
    | some st2 => scanLoop ex text lines sb eb fuel st2

/-- The `EditPosition` record (without the file path, which is copied
verbatim from the request). -/
structure EditPos where
  startLine : Int
  endLine : Int
  startColumn : Option Int
  endColumn : Option Int
  editType : String
deriving DecidableEq, Repr

/-- Source lines 328-464: scan the whole file content for the last qualifying
match and, if one exists, record the position of the end of the
replacement text.  `scB`/`ecB` are the requested column bounds; they are
accepted but, because of the shadowing described at `scanStep`, never
influence the result. -/
def simpleTrackedPos (ex : Exec) (text replace : Str)
    (sb eb scB ecB : Option Int) : Option EditPos :=
  let lines := splitNl text
  let final := scanLoop ex text lines sb eb (text.length + 2) ⟨0, 0, none⟩
  final.last.map fun lp =>
    let replacementLines := splitNl replace
    let replacementEndLine : Int := lp.startLine + (replacementLines.length : Int) - 1
    let replacementEndColumn : Int :=
      if replacementLines.length = 1 then lp.startColumn + (replace.length : Int) - 1
      else ((replacementLines.getLastD []).length : Int)
    { startLine := replacementEndLine, endLine := replacementEndLine,
      startColumn := some replacementEndColumn,
      endColumn := some (replacementEndColumn + 1),
      editType := "replace" }

/-- JS falsiness of an optional string parameter: `undefined` or `""`. -/
def jsFalsyStr (s : Option String) : Bool := s = none ∨ s = some ""

/-- Outcome of one invocation of the search-and-replace tool core. -/
inductive ToolOutcome where
  | missingPath
  | missingSearch
  | missingReplace
  | fileNotFound
  | success (newContent : Str) (pos : Option EditPos)
deriving DecidableEq, Repr

/-- The pure pipeline of `searchAndReplaceTool` for a literal,
case-sensitive pattern: `validateParams` (lines 85-114, in source order:
falsy `path`, falsy `search`, `undefined` `replace`), then the file read,
then the text transformation and position resolution.  `fs` abstracts the
file-existence/read collaborator. -/
def toolRun (relPath search replace : Option String) (sb eb scB ecB : Option Int)
    (fs : String → Option String) : ToolOutcome :=
  if jsFalsyStr relPath then .missingPath
  else if jsFalsyStr search then .missingSearch
  else if replace = none then .missingReplace
  else
    match fs (relPath.getD "") with
    | none => .fileNotFound
    | some content =>
      let text := strL content
      let pat := strL (search.getD "")
      let repl := strL (replace.getD "")
      .success (computeNewContent text pat repl sb eb scB ecB)
        (simpleTrackedPos (execLiteral pat) text repl sb eb scB ecB)

/-- One parsed SEARCH/REPLACE block (`applyDiffTool.ts` lines 170-177):
the declared start line, the search and replace texts, and its position in
the diff text (used only as the tie-breaking source order). -/
structure SRMatch where
  startLine : Nat
  searchContent : Str
  replaceContent : Str
  matchIndex : Nat
deriving DecidableEq, Repr

/-- Number of lines of a text, as the source counts them:
`content.split("\n").length`. -/
def countLines (s : Str) : Nat := (splitNl s).length

/-- Insert a block into an already sorted list, before the first element
whose declared start line is not smaller.  Folding this over the list is a
stable ascending sort, which is what `allMatches.sort((a, b) =>
a.startLine - b.startLine)` performs (JS `sort` is stable). -/
def sortInsert (b : SRMatch) : List SRMatch → List SRMatch
  | [] => [b]
  | a :: rest =>
    if a.startLine < b.startLine then a :: sortInsert b rest
    else b :: a :: rest

/-- Source line 181: sort blocks by declared start line ascending,
stably. -/
def sortMatches (ms : List SRMatch) : List SRMatch := ms.foldr sortInsert []

/-- Source `applyDiffTool.ts` lines 208-250: start and end column of one
block within the final document (`modLines`), at the adjusted lines. -/
def blockColumns (modLines : List Str) (adjStart adjEnd : Int)
    (replaceLines : List Str) : Int × Int :=
  let startCol : Int :=
    if adjStart ≤ (modLines.length : Int) ∧ adjStart > 0 then
      let modifiedFirstLine := modLines.getD (adjStart - 1).toNat []
      if modifiedFirstLine ≠ [] ∧ replaceLines.length > 0 then
        let replaceFirstLine := replaceLines.headD []
        match indexOfSub? modifiedFirstLine (trimL replaceFirstLine) with
        | some i => (i : Int) + 1
        | none => (leadingWsLen replaceFirstLine : Int) + 1
      else 1
    else 1
  let endCol : Int :=
    if adjEnd ≤ (modLines.length : Int) ∧ adjEnd > 0 ∧ replaceLines.length > 0 then
      let modifiedLastLine := modLines.getD (adjEnd - 1).toNat []
      let replaceLastLine := replaceLines.getLastD []
      if modifiedLastLine ≠ [] then
        let t := trimEndL replaceLastLine
        match indexOfSub? modifiedLastLine t with
        | some i => (i : Int) + (t.length : Int) + 1
        | none => ((trimEndL modifiedLastLine).length : Int) + 1
      else 1
    else 1
  (startCol, endCol)

/-- The per-block result of the offset-tracking loop. -/
structure AdjBlock where
  adjStart : Int
  adjEnd : Int
  startCol : Int
  endCol : Int
deriving DecidableEq, Repr

/-- Source `applyDiffTool.ts` lines 183-260: process the sorted blocks,
carrying `cumulativeLineOffset` (`off`).  For each block:
`adjustedStartLine = declaredStartLine + off`,
`adjustedEndLine = adjustedStartLine + lines(replace) - 1`, columns from
`blockColumns`, and only afterwards `off += lines(replace) -
lines(search)`. -/
def processBlocks (modLines : List Str) (off : Int) : List SRMatch → List AdjBlock
  | [] => []
  | m :: rest =>
    let searchLines := splitNl m.searchContent
    let replaceLines := splitNl m.replaceContent
    let lineDelta : Int := (replaceLines.length : Int) - (searchLines.length : Int)
    let adjStart : Int := (m.startLine : Int) + off
    let adjEnd : Int := adjStart + (replaceLines.length : Int) - 1
    let cols := blockColumns modLines adjStart adjEnd replaceLines
    ⟨adjStart, adjEnd, cols.1, cols.2⟩ :: processBlocks modLines (off + lineDelta) rest

/-- Net line delta of a prefix of blocks:
the sum of `lines(replace) - lines(search)`. -/
def offSum : List SRMatch → Int
  | [] => 0
  | m :: rest =>
    ((countLines m.replaceContent : Int) - (countLines m.searchContent : Int)) + offSum rest

/-- Source `applyDiffTool.ts` lines 300-318 (single-block fallback):
final end line and end column, starting from the defaults
`(blockStartLine, 1)`. -/
def fallbackEnd (modLines : List Str) (blockStartLine fsl : Int)
    (replaceLines : List Str) : Int × Int :=
  if replaceLines.length > 0 then
    let fel : Int := fsl + (replaceLines.length : Int) - 1
    let fec : Int :=
      if fel ≤ (modLines.length : Int) ∧ fel > 0 then
        let modifiedLastLine := modLines.getD (fel - 1).toNat []
        if modifiedLastLine ≠ [] then
          let t := trimEndL (replaceLines.getLastD [])
          match indexOfSub? modifiedLastLine t with
          | some i => (i : Int) + (t.length : Int) + 1
          | none => ((trimEndL modifiedLastLine).length : Int) + 1
        else 1
      else 1
    (fel, fec)
  else (blockStartLine, 1)

/-- Source `applyDiffTool.ts` lines 150-331: the `EditPosition` recorded by
the apply-diff path.  `ms` are the parsed SEARCH/REPLACE blocks of the
diff text; when none parse, `fbStartLine` is the `:start_line:` of the
single-block fallback regex and `fb` its `(search, replace)` texts; the
tracked record uses the final end line/column for all four fields. -/
def applyDiffFinalPos (modLines : List Str) (blockStartLine : Int)
    (ms : List SRMatch) (fbStartLine : Option Int) (fb : Option (Str × Str)) : EditPos :=
  let fin : Int × Int :=
    if ms ≠ [] then
      let sorted := sortMatches ms
      match (processBlocks modLines 0 sorted).getLast? with
      | some blk => (blk.adjEnd, blk.endCol)
      | none => (blockStartLine, 1)
    else
      let fsl : Int := fbStartLine.getD blockStartLine
      match fb with
      | none => (blockStartLine, 1)
      | some p =>
        let replaceLines := splitNl p.2
        fallbackEnd modLines blockStartLine fsl replaceLines
  { startLine := fin.1, endLine := fin.1,
    startColumn := some fin.2, endColumn := some fin.2,
    editType := "modify" }

/-- Modelled from the spec (4.5, start column): within the final line at
`adjustedStartLine`, find the trimmed first line of the replace text; if
found, column = index + 1, else leading-whitespace length + 1. -/
def specStartCol (modLines : List Str) (adjStart : Int) (replaceLines : List Str) : Int :=
  let line := modLines.getD (adjStart - 1).toNat []
  match indexOfSub? line (trimL (replaceLines.headD [])) with
  | some i => (i : Int) + 1
  | none => (leadingWsLen (replaceLines.headD []) : Int) + 1

/-- Modelled from the spec (4.5, end column): within the final line at
`adjustedEndLine`, find the right-trimmed last line of the replace text;
if found, column = index + trimmed length + 1, else the trimmed length of
that final line + 1. -/
def specEndCol (modLines : List Str) (adjEnd : Int) (replaceLines : List Str) : Int :=
  let line := modLines.getD (adjEnd - 1).toNat []
  let t := trimEndL (replaceLines.getLastD [])
  match indexOfSub? line t with
  | some i => (i : Int) + (t.length : Int) + 1
  | none => ((trimEndL line).length : Int) + 1

/-- Invariant carried by the scan loop: any stored last-match position has
a 1-based (hence positive) start column. -/
def lastColInv (st : ScanState) : Prop :=
  ∀ lp, st.last = some lp → 1 ≤ lp.startColumn

theorem getSubstitution_no_dollar (m b a : Str) {repl : Str} (h : '$' ∉ repl) :
    getSubstitution m b a repl = repl := by
  induction repl with
  | nil => rfl
  | cons c rest ih =>
    have hc : ¬ c = '$' := fun e => h (e ▸ List.mem_cons_self c rest)
    have h2 : '$' ∉ rest := fun hr => h (List.mem_cons_of_mem _ hr)
    rw [getSubstitution.eq_def]
    simp only [if_neg hc]
    rw [ih h2]

theorem replaceFuel_eq_spec (pat : Str) {repl : Str} (h : '$' ∉ repl) :
    ∀ (fuel : Nat) (before s : Str),
      replaceFuel pat repl fuel before s = specReplaceFuel pat repl fuel s := by
  intro fuel
  induction fuel with
  | zero => intro before s; rfl
  | succ n ih =>
    intro before s
    simp only [replaceFuel, specReplaceFuel]
    by_cases hm : pat ≠ [] ∧ pat.isPrefixOf s = true ∧ s ≠ []
    · rw [if_pos hm, if_pos hm, getSubstitution_no_dollar _ _ _ h, ih]
    · rw [if_neg hm, if_neg hm]
      cases s with
      | nil =>
        by_cases hp : pat = [] <;>
          simp [hp, getSubstitution_no_dollar _ _ _ h]
      | cons c rest =>
        by_cases hp : pat = []
        · subst hp
          simp [getSubstitution_no_dollar _ _ _ h, ih]
        · simp [hp, ih]

/-- Claim C7, counterexample: with replacement `"$&x"`, the JS replacement
(which substitutes `$&` by the matched text, source line 274) differs from
verbatim insertion of the replacement string. -/
theorem literalReplace_dollar_cex :
    jsReplaceAll (strL "a") (strL "$&x") (strL "a") = strL "ax"
    ∧ specLiteralReplace (strL "a") (strL "$&x") (strL "a") = strL "$&x"
    ∧ jsReplaceAll (strL "a") (strL "$&x") (strL "a")
        ≠ specLiteralReplace (strL "a") (strL "$&x") (strL "a") := by
  refine ⟨by decide, by decide, by decide⟩

/-- Claim C7 (amended): for every text, literal pattern and replacement in
which the character `$` does not occur, the unbounded replacement computed
by the code equals replacing every non-overlapping occurrence of the
pattern by the replacement, left to right in one pass; the escaped literal
pattern `"a.b"` matches only the exact substring `"a.b"`, never `"axb"`. -/
theorem literalReplace_equiv :
    (∀ pat repl s : Str, '$' ∉ repl →
        jsReplaceAll pat repl s = specLiteralReplace pat repl s)
    ∧ jsReplaceAll (strL "a.b") (strL "Z") (strL "axb") = strL "axb"
    ∧ jsReplaceAll (strL "a.b") (strL "Z") (strL "xa.by") = strL "xZy"
    ∧ escapeRegExp (strL "a.b") = strL "a\\.b" := by
  refine ⟨fun pat repl s h => replaceFuel_eq_spec pat h _ _ _, by decide, by decide, by decide⟩

theorem literalReplace_equiv_witness :
    jsReplaceAll (strL "ab") (strL "c") (strL "abab")
      = specLiteralReplace (strL "ab") (strL "c") (strL "abab") :=
  literalReplace_equiv.1 (strL "ab") (strL "c") (strL "abab") (by decide)

/-- Claim C10: an empty `search` parameter is rejected as the missing
`search` parameter no matter what the file system contains (so before any
file is read); a defined empty `replace` passes validation; an undefined
`replace` is rejected. -/
theorem validateParams_emptySearch :
    (∀ (p r : Option String) (b1 b2 b3 b4 : Option Int) (fs : String → Option String),
        ¬ jsFalsyStr p = true →
          toolRun p (some "") r b1 b2 b3 b4 fs = ToolOutcome.missingSearch)
    ∧ (∀ (p s : Option String) (b1 b2 b3 b4 : Option Int) (fs : String → Option String),
        ¬ jsFalsyStr p = true → ¬ jsFalsyStr s = true →
          toolRun p s (some "") b1 b2 b3 b4 fs ≠ ToolOutcome.missingReplace
          ∧ toolRun p s (some "") b1 b2 b3 b4 fs ≠ ToolOutcome.missingSearch
          ∧ toolRun p s (some "") b1 b2 b3 b4 fs ≠ ToolOutcome.missingPath)
    ∧ (∀ (p s : Option String) (b1 b2 b3 b4 : Option Int) (fs : String → Option String),
        ¬ jsFalsyStr p = true → ¬ jsFalsyStr s = true →
          toolRun p s none b1 b2 b3 b4 fs = ToolOutcome.missingReplace) := by
  refine ⟨?_, ?_, ?_⟩
  · intro p r b1 b2 b3 b4 fs hp
    simp only [toolRun, if_neg hp]
    have : jsFalsyStr (some "") = true := by decide
    rw [if_pos this]
  · intro p s b1 b2 b3 b4 fs hp hs
    simp only [toolRun, if_neg hp, if_neg hs]
    have : ¬ ((some "" : Option String) = none) := by decide
    rw [if_neg this]
    cases fs (p.getD "") <;> simp
  · intro p s b1 b2 b3 b4 fs hp hs
    simp [toolRun, if_neg hp, if_neg hs]

theorem validateParams_emptySearch_witness :
    toolRun (some "f.txt") (some "") (some "x") none none none none (fun _ => some "abc")
      = ToolOutcome.missingSearch :=
  validateParams_emptySearch.1 (some "f.txt") (some "x") none none none none
    (fun _ => some "abc") (by decide)

/-- Claim C3: the recorded position of the simple search/replace path is
the end of the replacement anchored at the last qualifying match: for
`"foo foo foo"` with `"foo"` replaced by `"bar"` and no bounds the record
ends at column 11 (the third occurrence's post-replacement end, not
column 3 of the first); for `"line1\nline2\nline3"` with `"line2"`
replaced by `"L2"` the new text is `"line1\nL2\nline3"` and the record has
`startLine = endLine = 2`. -/
theorem simplePath_lastMatch_position :
    simpleTrackedPos (execLiteral (strL "foo")) (strL "foo foo foo") (strL "bar")
        none none none none
      = some ⟨1, 1, some 11, some 12, "replace"⟩
    ∧ computeNewContent (strL "foo foo foo") (strL "foo") (strL "bar") none none none none
      = strL "bar bar bar"
    ∧ computeNewContent (strL "line1\nline2\nline3") (strL "line2") (strL "L2")
        none none none none
      = strL "line1\nL2\nline3"
    ∧ simpleTrackedPos (execLiteral (strL "line2")) (strL "line1\nline2\nline3") (strL "L2")
        none none none none
      = some ⟨2, 2, some 2, some 3, "replace"⟩ := by
  refine ⟨by decide, by decide, by decide, by decide⟩

/-- Claim C1, failing input: with `startLine = endLine = 1` and no column
bounds, the bounded replacer returns the text unchanged although line 1
contains the pattern — the map body (source lines 249-268) only modifies a
line inside `if (startColumn !== undefined || endColumn !== undefined)`,
so a line-only bound performs no replacement at all, while the unbounded
path would have replaced it. -/
theorem lineBoundedReplace_noop_bug :
    computeNewContent (strL "foo\nbar") (strL "foo") (strL "X") (some 1) (some 1) none none
      = strL "foo\nbar"
    ∧ jsReplaceAll (strL "foo") (strL "X") (strL "foo\nbar") = strL "X\nbar" := by
  refine ⟨by decide, by decide⟩

/-- Claim C5, failing input: in `"foo foo"` with requested column bounds
`[1, 3]` (and line bounds `[1, 1]`), the second match at columns 5-7 lies
outside the requested columns, yet it still anchors the recorded position
(end column 7, not 3): the source's column check (lines 406-419) reads the
loop-local `startColumn`/`endColumn`, which shadow the request parameters,
so the requested column bounds never filter any match — the result is
identical for every choice of requested column bounds. -/
theorem columnBounds_ignored_bug :
    simpleTrackedPos (execLiteral (strL "foo")) (strL "foo foo") (strL "bar")
        (some 1) (some 1) (some 1) (some 3)
      = some ⟨1, 1, some 7, some 8, "replace"⟩
    ∧ ∀ scB ecB : Option Int,
        simpleTrackedPos (execLiteral (strL "foo")) (strL "foo foo") (strL "bar")
            (some 1) (some 1) scB ecB
          = simpleTrackedPos (execLiteral (strL "foo")) (strL "foo foo") (strL "bar")
              (some 1) (some 1) none none := by
  exact ⟨by decide, fun scB ecB => rfl⟩

theorem columnBounds_ignored_bug_witness :
    simpleTrackedPos (execLiteral (strL "foo")) (strL "foo foo") (strL "bar")
        (some 1) (some 1) (some 2) (some 5)
      = simpleTrackedPos (execLiteral (strL "foo")) (strL "foo foo") (strL "bar")
          (some 1) (some 1) none none :=
  columnBounds_ignored_bug.2 (some 2) (some 5)

/-- Claim C4, failing input: scanning `"a\nb"` with the zero-length-match
pattern `x*` and line bounds `[2, 2]`: the zero-length match at offset 0
is outside the line bounds, so the cursor bump at source lines 433-437
(which sits inside the `withinLineRange && withinColumnRange` branch) is
skipped, one loop step returns the state unchanged, and the scan never
terminates — contradicting the claim that the cursor always advances. -/
theorem zeroLengthMatch_scan_stuck :
    scanStep (execStar 'x') (strL "a\nb") (splitNl (strL "a\nb")) (some 2) (some 2)
        ⟨0, 0, none⟩
      = some ⟨0, 0, none⟩
    ∧ ∀ n : Nat,
        scanLoop (execStar 'x') (strL "a\nb") (splitNl (strL "a\nb")) (some 2) (some 2) n
            ⟨0, 0, none⟩
          = ⟨0, 0, none⟩ := by
  have hstep :
      scanStep (execStar 'x') (strL "a\nb") (splitNl (strL "a\nb")) (some 2) (some 2)
          ⟨0, 0, none⟩
        = some ⟨0, 0, none⟩ := by decide
  refine ⟨hstep, ?_⟩
  intro n
  induction n with
  | zero => rfl
  | succ k ih => rw [scanLoop, hstep]; exact ih

theorem zeroLengthMatch_scan_stuck_witness :
    scanLoop (execStar 'x') (strL "a\nb") (splitNl (strL "a\nb")) (some 2) (some 2) 7
        ⟨0, 0, none⟩
      = ⟨0, 0, none⟩ :=
  zeroLengthMatch_scan_stuck.2 7

/-- Claim C9, counterexample: with the accepted empty replacement string,
the simple path records `startColumn = 0`, which is not 1-based: on
`"foo bar"`, replacing `"foo"` by `""`, the record is
`(1, 1, some 0, some 1)`. -/
theorem editPosition_invariant_cex :
    simpleTrackedPos (execLiteral (strL "foo")) (strL "foo bar") (strL "")
        none none none none
      = some ⟨1, 1, some 0, some 1, "replace"⟩
    ∧ ¬ (∀ p : EditPos,
          simpleTrackedPos (execLiteral (strL "foo")) (strL "foo bar") (strL "")
              none none none none
            = some p →
          ∀ c : Int, p.startColumn = some c → 1 ≤ c) := by
  refine ⟨by decide, fun h => ?_⟩
  have := h ⟨1, 1, some 0, some 1, "replace"⟩ (by decide) 0 rfl
  exact absurd this (by decide)

theorem findLineColAux_col_ge (m : Nat) :
    ∀ (lines : List Str) (i c : Nat), c ≤ m →
      1 ≤ (((findLineColAux lines i c m).getD (0, (m : Int) + 1)).2) := by
  intro lines
  induction lines with
  | nil =>
    intro i c h
    simp only [findLineColAux, Option.getD_none]
    omega
  | cons l rest ih =>
    intro i c h
    simp only [findLineColAux]
    by_cases hb : c + (l.length + 1) > m
    · rw [if_pos hb]
      simp only [Option.getD_some]
      omega
    · rw [if_neg hb]
      exact ih _ _ (by omega)

theorem findLineCol_col_ge (lines : List Str) (m : Nat) : 1 ≤ (findLineCol lines m).2 :=
  findLineColAux_col_ge m lines 0 0 (Nat.zero_le m)

theorem scanStep_inv (ex : Exec) (text : Str) (lines : List Str) (sb eb : Option Int)
    (st st2 : ScanState) (h : lastColInv st)
    (hs : scanStep ex text lines sb eb st = some st2) : lastColInv st2 := by
  unfold scanStep at hs
  cases hex : ex text st.lastIndex with
  | none => rw [hex] at hs; cases hs
  | some mp =>
    obtain ⟨mIdx, mLen⟩ := mp
    rw [hex] at hs
    dsimp only at hs
    split at hs <;> split at hs <;>
      (injection hs with h2; subst h2; intro lp hl;
        first
          | exact h lp hl
          | (injection hl with h3; subst h3; exact findLineCol_col_ge lines mIdx))

theorem scanLoop_inv (ex : Exec) (text : Str) (lines : List Str) (sb eb : Option Int) :
    ∀ (fuel : Nat) (st : ScanState), lastColInv st →
      lastColInv (scanLoop ex text lines sb eb fuel st) := by
  intro fuel
  induction fuel with
  | zero => intro st h; exact h
  | succ k ih =>
    intro st h
    rw [scanLoop]
    cases hstep : scanStep ex text lines sb eb st with
    | none => exact h
    | some st2 => exact ih st2 (scanStep_inv ex text lines sb eb st st2 h hstep)

theorem blockColumns_endCol_ge (modLines : List Str) (adjStart adjEnd : Int)
    (replaceLines : List Str) :
    1 ≤ (blockColumns modLines adjStart adjEnd replaceLines).2 := by
  unfold blockColumns
  dsimp only
  split
  · split
    · split <;> omega
    · omega
  · omega

theorem fallbackEnd_snd_ge (modLines : List Str) (blockStartLine fsl : Int)
    (replaceLines : List Str) :
    1 ≤ (fallbackEnd modLines blockStartLine fsl replaceLines).2 := by
  unfold fallbackEnd
  dsimp only
  split
  · split
    · split
      · split <;> omega
      · omega
    · omega
  · omega

theorem processBlocks_endCol_ge (modLines : List Str) :
    ∀ (l : List SRMatch) (off : Int) (blk : AdjBlock),
      blk ∈ processBlocks modLines off l → 1 ≤ blk.endCol := by
  intro l
  induction l with
  | nil => intro off blk hm; cases hm
  | cons m rest ih =>
    intro off blk hm
    rw [processBlocks] at hm
    cases hm with
    | head =>
      exact blockColumns_endCol_ge modLines ((m.startLine : Int) + off)
        ((m.startLine : Int) + off + ((splitNl m.replaceContent).length : Int) - 1)
        (splitNl m.replaceContent)
    | tail _ hm2 => exact ih _ blk hm2

theorem getLast?_mem_aux : ∀ (l : List α) (a : α), l.getLast? = some a → a ∈ l := by
  intro l
  induction l with
  | nil => intro a h; cases h
  | cons x rest ih =>
    intro a h
    cases rest with
    | nil =>
      simp only [List.getLast?_singleton, Option.some.injEq] at h
      subst h
      exact List.mem_singleton_self x
    | cons y t =>
      rw [List.getLast?_cons_cons] at h
      exact List.mem_cons_of_mem _ (ih a h)

/-- Claim C9 (amended): every recorded position satisfies
`startLine ≤ endLine` (the two are in fact equal on both paths) and
`startColumn ≤ endColumn + 1`; the apply-diff path records columns `≥ 1`,
while the simple search/replace path guarantees only `startColumn ≥ 0`
with `endColumn = startColumn + 1`. -/
theorem editPosition_invariant :
    (∀ (ex : Exec) (text replace : Str) (sb eb scB ecB : Option Int) (p : EditPos),
        simpleTrackedPos ex text replace sb eb scB ecB = some p →
          p.startLine = p.endLine
          ∧ ∃ c : Int, p.startColumn = some c ∧ p.endColumn = some (c + 1) ∧ 0 ≤ c)
    ∧ (∀ (modLines : List Str) (bsl : Int) (ms : List SRMatch)
          (fbs : Option Int) (fb : Option (Str × Str)),
        (applyDiffFinalPos modLines bsl ms fbs fb).startLine
            = (applyDiffFinalPos modLines bsl ms fbs fb).endLine
          ∧ ∃ c : Int, (applyDiffFinalPos modLines bsl ms fbs fb).startColumn = some c
              ∧ (applyDiffFinalPos modLines bsl ms fbs fb).endColumn = some c
              ∧ 1 ≤ c) := by
  constructor
  · intro ex text replace sb eb scB ecB p hp
    unfold simpleTrackedPos at hp
    rw [Option.map_eq_some'] at hp
    obtain ⟨lp, hlp, hrec⟩ := hp
    have hinv : lastColInv (scanLoop ex text (splitNl text) sb eb (text.length + 2) ⟨0, 0, none⟩) :=
      scanLoop_inv ex text (splitNl text) sb eb (text.length + 2) ⟨0, 0, none⟩
        (fun lp2 h2 => by cases h2)
    have hcol : 1 ≤ lp.startColumn := hinv lp hlp
    subst hrec
    refine ⟨rfl, ?_⟩
    refine ⟨_, rfl, rfl, ?_⟩
    dsimp only
    split
    · omega
    · omega
  · intro modLines bsl ms fbs fb
    unfold applyDiffFinalPos
    dsimp only
    refine ⟨rfl, ?_⟩
    refine ⟨_, rfl, rfl, ?_⟩
    split
    · split
      · next blk hlast =>
        exact processBlocks_endCol_ge modLines _ _ blk (getLast?_mem_aux _ blk hlast)
      · omega
    · split
      · omega
      · exact fallbackEnd_snd_ge _ _ _ _

theorem editPosition_invariant_witness :
    simpleTrackedPos (execLiteral (strL "a")) (strL "a b") (strL "c") none none none none
      = some ⟨1, 1, some 1, some 2, "replace"⟩
    ∧ ((⟨1, 1, some 1, some 2, "replace"⟩ : EditPos).startLine
        = (⟨1, 1, some 1, some 2, "replace"⟩ : EditPos).endLine
      ∧ ∃ c : Int, (⟨1, 1, some 1, some 2, "replace"⟩ : EditPos).startColumn = some c
          ∧ (⟨1, 1, some 1, some 2, "replace"⟩ : EditPos).endColumn = some (c + 1) ∧ 0 ≤ c) :=
  ⟨by decide,
   editPosition_invariant.1 (execLiteral (strL "a")) (strL "a b") (strL "c")
     none none none none ⟨1, 1, some 1, some 2, "replace"⟩ (by decide)⟩

theorem sortInsert_perm (b : SRMatch) : ∀ l, List.Perm (sortInsert b l) (b :: l) := by
  intro l
  induction l with
  | nil => exact List.Perm.refl _
  | cons a rest ih =>
    rw [sortInsert]
    by_cases hc : a.startLine < b.startLine
    · rw [if_pos hc]
      exact (List.Perm.cons a ih).trans (List.Perm.swap b a rest)
    · rw [if_neg hc]

theorem sortMatches_perm : ∀ ms, List.Perm (sortMatches ms) ms := by
  intro ms
  induction ms with
  | nil => exact List.Perm.refl _
  | cons m rest ih =>
    exact (sortInsert_perm m _).trans (List.Perm.cons m ih)

theorem sortInsert_pairwise (b : SRMatch) :
    ∀ l, List.Pairwise (fun x y : SRMatch => x.startLine ≤ y.startLine) l →
      List.Pairwise (fun x y : SRMatch => x.startLine ≤ y.startLine) (sortInsert b l) := by
  intro l
  induction l with
  | nil => intro _; simp [sortInsert]
  | cons a rest ih =>
    intro hp
    rw [List.pairwise_cons] at hp
    obtain ⟨ha, hrest⟩ := hp
    rw [sortInsert]
    by_cases hc : a.startLine < b.startLine
    · rw [if_pos hc, List.pairwise_cons]
      refine ⟨?_, ih hrest⟩
      intro x hx
      rcases List.mem_cons.mp ((sortInsert_perm b rest).mem_iff.mp hx) with hx2 | hx2
      · subst hx2
        omega
      · exact ha x hx2
    · rw [if_neg hc, List.pairwise_cons]
      refine ⟨?_, ?_⟩
      · intro x hx
        rcases List.mem_cons.mp hx with hx2 | hx2
        · subst hx2
          omega
        · exact Nat.le_trans (Nat.le_of_not_lt hc) (ha x hx2)
      · rw [List.pairwise_cons]
        exact ⟨ha, hrest⟩

theorem sortMatches_pairwise :
    ∀ ms, List.Pairwise (fun x y : SRMatch => x.startLine ≤ y.startLine) (sortMatches ms) := by
  intro ms
  induction ms with
  | nil => exact List.Pairwise.nil
  | cons m rest ih => exact sortInsert_pairwise m _ ih

theorem filter_sortInsert_eq (b : SRMatch) (k : Nat) (hb : b.startLine = k) :
    ∀ l, (sortInsert b l).filter (fun m => m.startLine == k)
      = b :: l.filter (fun m => m.startLine == k) := by
  intro l
  induction l with
  | nil => simp [sortInsert, hb]
  | cons a rest ih =>
    rw [sortInsert]
    by_cases hc : a.startLine < b.startLine
    · rw [if_pos hc]
      have hak : ¬ (a.startLine == k) = true := by
        simp only [beq_iff_eq]
        omega
      rw [List.filter_cons, if_neg hak, List.filter_cons, if_neg hak, ih]
    · rw [if_neg hc]
      have hbk : (b.startLine == k) = true := by simp [hb]
      rw [List.filter_cons, if_pos hbk]

theorem filter_sortInsert_ne (b : SRMatch) (k : Nat) (hb : ¬ b.startLine = k) :
    ∀ l, (sortInsert b l).filter (fun m => m.startLine == k)
      = l.filter (fun m => m.startLine == k) := by
  intro l
  induction l with
  | nil => simp [sortInsert, hb]
  | cons a rest ih =>
    rw [sortInsert]
    have hbk : ¬ (b.startLine == k) = true := by
      simp only [beq_iff_eq]
      exact hb
    by_cases hc : a.startLine < b.startLine
    · rw [if_pos hc]
      rw [List.filter_cons, List.filter_cons, ih]
    · rw [if_neg hc]
      rw [List.filter_cons, if_neg hbk]

theorem sortMatches_filter (k : Nat) :
    ∀ ms, (sortMatches ms).filter (fun m => m.startLine == k)
      = ms.filter (fun m => m.startLine == k) := by
  intro ms
  induction ms with
  | nil => rfl
  | cons m rest ih =>
    by_cases hm : m.startLine = k
    · show (sortInsert m (sortMatches rest)).filter _ = _
      rw [filter_sortInsert_eq m k hm, ih, List.filter_cons,
        if_pos (by simp [hm])]
    · show (sortInsert m (sortMatches rest)).filter _ = _
      rw [filter_sortInsert_ne m k hm, ih, List.filter_cons,
        if_neg (by simp only [beq_iff_eq]; exact hm)]

theorem processBlocks_getD (modLines : List Str) :
    ∀ (l : List SRMatch) (off : Int) (i : Nat), i < l.length →
      ((processBlocks modLines off l).getD i ⟨0, 0, 0, 0⟩).adjStart
        = ((l.getD i ⟨0, [], [], 0⟩).startLine : Int) + off + offSum (l.take i)
      ∧ ((processBlocks modLines off l).getD i ⟨0, 0, 0, 0⟩).adjEnd
        = ((processBlocks modLines off l).getD i ⟨0, 0, 0, 0⟩).adjStart
            + (countLines (l.getD i ⟨0, [], [], 0⟩).replaceContent : Int) - 1 := by
  intro l
  induction l with
  | nil => intro off i h; exact absurd h (Nat.not_lt_zero i)
  | cons m rest ih =>
    intro off i h
    cases i with
    | zero =>
      rw [processBlocks]
      constructor
      · simp only [List.getD_cons_zero, List.take_zero, offSum]
        omega
      · simp only [List.getD_cons_zero, countLines]
    | succ j =>
      have h2 : j < rest.length := by
        simp only [List.length_cons] at h
        omega
      obtain ⟨ih1, ih2⟩ := ih
        (off + (((splitNl m.replaceContent).length : Int) - ((splitNl m.searchContent).length : Int)))
        j h2
      rw [processBlocks]
      constructor
      · simp only [List.getD_cons_succ, List.take_succ_cons, offSum, countLines] at ih1 ⊢
        rw [ih1]
        omega
      · simp only [List.getD_cons_succ, countLines] at ih2 ⊢
        exact ih2

/-- Claim C2: blocks are processed in ascending declared-start-line order
(stably: for each start-line value the relative source order is kept, and
the sorted sequence is a permutation of the input); for the `i`-th sorted
block, `adjustedStartLine` is its declared start line plus the net line
delta of the strictly earlier sorted blocks and `adjustedEndLine` is
`adjustedStartLine + lines(replaceText) - 1`; in particular, for blocks
with declared start lines 10 and 20 where block 1 adds 3 net lines,
block 2's adjusted start line is 23. -/
theorem applyDiff_lineOffsetTracking :
    (∀ ms : List SRMatch,
        List.Pairwise (fun x y : SRMatch => x.startLine ≤ y.startLine) (sortMatches ms))
    ∧ (∀ ms : List SRMatch, List.Perm (sortMatches ms) ms)
    ∧ (∀ (ms : List SRMatch) (k : Nat),
        (sortMatches ms).filter (fun m => m.startLine == k)
          = ms.filter (fun m => m.startLine == k))
    ∧ (∀ (modLines : List Str) (ms : List SRMatch) (i : Nat),
        i < (sortMatches ms).length →
          ((processBlocks modLines 0 (sortMatches ms)).getD i ⟨0, 0, 0, 0⟩).adjStart
            = (((sortMatches ms).getD i ⟨0, [], [], 0⟩).startLine : Int)
                + offSum ((sortMatches ms).take i)
          ∧ ((processBlocks modLines 0 (sortMatches ms)).getD i ⟨0, 0, 0, 0⟩).adjEnd
            = ((processBlocks modLines 0 (sortMatches ms)).getD i ⟨0, 0, 0, 0⟩).adjStart
                + (countLines ((sortMatches ms).getD i ⟨0, [], [], 0⟩).replaceContent : Int)
                - 1)
    ∧ ((processBlocks [] 0 (sortMatches
          [⟨10, strL "s", strL "r1\nr2\nr3\nr4", 0⟩,
           ⟨20, strL "t", strL "u", 1⟩])).getD 1 ⟨0, 0, 0, 0⟩).adjStart = 23 := by
  refine ⟨sortMatches_pairwise, sortMatches_perm, fun ms k => sortMatches_filter k ms,
    ?_, by decide⟩
  intro modLines ms i h
  obtain ⟨h1, h2⟩ := processBlocks_getD modLines (sortMatches ms) 0 i h
  refine ⟨?_, h2⟩
  rw [h1]
  omega

theorem applyDiff_lineOffsetTracking_witness :
    ((processBlocks [] 0 (sortMatches
          [⟨10, strL "s", strL "r1\nr2\nr3\nr4", 0⟩,
           ⟨20, strL "t", strL "u", 1⟩])).getD 1 ⟨0, 0, 0, 0⟩).adjStart
      = (((sortMatches [⟨10, strL "s", strL "r1\nr2\nr3\nr4", 0⟩,
            ⟨20, strL "t", strL "u", 1⟩]).getD 1 ⟨0, [], [], 0⟩).startLine : Int)
          + offSum ((sortMatches [⟨10, strL "s", strL "r1\nr2\nr3\nr4", 0⟩,
              ⟨20, strL "t", strL "u", 1⟩]).take 1)
      ∧ ((processBlocks [] 0 (sortMatches
            [⟨10, strL "s", strL "r1\nr2\nr3\nr4", 0⟩,
             ⟨20, strL "t", strL "u", 1⟩])).getD 1 ⟨0, 0, 0, 0⟩).adjEnd
        = ((processBlocks [] 0 (sortMatches
              [⟨10, strL "s", strL "r1\nr2\nr3\nr4", 0⟩,
               ⟨20, strL "t", strL "u", 1⟩])).getD 1 ⟨0, 0, 0, 0⟩).adjStart
            + (countLines ((sortMatches [⟨10, strL "s", strL "r1\nr2\nr3\nr4", 0⟩,
                ⟨20, strL "t", strL "u", 1⟩]).getD 1 ⟨0, [], [], 0⟩).replaceContent : Int)
            - 1 :=
  applyDiff_lineOffsetTracking.2.2.2.1 []
    [⟨10, strL "s", strL "r1\nr2\nr3\nr4", 0⟩, ⟨20, strL "t", strL "u", 1⟩] 1 (by decide)

/-- Claim C6, counterexample: when the final line at `adjustedStartLine` is
empty, the truthiness guard `if (modifiedFirstLine)` (source line 215)
skips the whole computation and the start column stays 1, while the
claim's fallback gives leading-whitespace length + 1 = 3 for replace text
`"  x"`. -/
theorem positionResolver_emptyLine_cex :
    (blockColumns [[]] 1 1 [strL "  x"]).1 = 1
    ∧ specStartCol [[]] 1 [strL "  x"] = 3
    ∧ (blockColumns [[]] 1 1 [strL "  x"]).1 ≠ specStartCol [[]] 1 [strL "  x"] := by
  refine ⟨by decide, by decide, by decide⟩

/-- Claim C6 (amended): with both adjusted lines inside the final document
and a non-empty final line at `adjustedStartLine`, the start and end
columns are exactly as the claim states them; when that final line is
empty the code leaves the start column at 1 instead of applying the
whitespace fallback.  The end-column rule needs no non-empty proviso. -/
theorem positionResolver_columns :
    ∀ (modLines : List Str) (adjStart adjEnd : Int) (replaceLines : List Str),
      1 ≤ adjStart → adjStart ≤ (modLines.length : Int) →
      modLines.getD (adjStart - 1).toNat [] ≠ [] →
      1 ≤ adjEnd → adjEnd ≤ (modLines.length : Int) →
      replaceLines ≠ [] →
      (blockColumns modLines adjStart adjEnd replaceLines).1
          = specStartCol modLines adjStart replaceLines
      ∧ (blockColumns modLines adjStart adjEnd replaceLines).2
          = specEndCol modLines adjEnd replaceLines := by
  intro modLines a e repl h1 h2 h3 h4 h5 h6
  have hrl : repl.length > 0 := List.length_pos.mpr h6
  constructor
  · simp only [blockColumns, specStartCol]
    rw [if_pos (⟨h2, by omega⟩ : a ≤ (modLines.length : Int) ∧ a > 0)]
    rw [if_pos ⟨h3, hrl⟩]
  · simp only [blockColumns, specEndCol]
    rw [if_pos (⟨h5, by omega, hrl⟩ :
      e ≤ (modLines.length : Int) ∧ e > 0 ∧ repl.length > 0)]
    by_cases hline : modLines.getD (e - 1).toNat [] = []
    · rw [if_neg (by simpa using hline)]
      rw [hline]
      cases ht : trimEndL (repl.getLastD []) with
      | nil =>
        have : indexOfSub? [] ([] : Str) = some 0 := by decide
        rw [this]
        simp
      | cons c cs =>
        have : indexOfSub? [] (c :: cs) = none := by
          simp [indexOfSub?, List.isPrefixOf]
        rw [this]
        simp [trimEndL]
    · rw [if_pos (by simpa using hline)]

theorem positionResolver_columns_witness :
    (blockColumns [strL "ab"] 1 1 [strL "ab"]).1 = specStartCol [strL "ab"] 1 [strL "ab"]
    ∧ (blockColumns [strL "ab"] 1 1 [strL "ab"]).2 = specEndCol [strL "ab"] 1 [strL "ab"] :=
  positionResolver_columns [strL "ab"] 1 1 [strL "ab"]
    (by decide) (by decide) (by decide) (by decide) (by decide) (by decide)

theorem getD_take_of_lt (l : List α) :
    ∀ (k i : Nat) (d : α), i < k → (l.take k).getD i d = l.getD i d := by
  induction l with
  | nil => intro k i d _; simp
  | cons x xs ih =>
    intro k i d h
    cases k with
    | zero => exact absurd h (Nat.not_lt_zero i)
    | succ k2 =>
      cases i with
      | zero => rfl
      | succ j =>
        simp only [List.take_succ_cons, List.getD_cons_succ]
        exact ih k2 j d (by omega)

theorem getD_drop_add (l : List α) :
    ∀ (k i : Nat) (d : α), (l.drop k).getD i d = l.getD (k + i) d := by
  induction l with
  | nil => intro k i d; simp
  | cons x xs ih =>
    intro k i d
    cases k with
    | zero => simp
    | succ k2 =>
      simp only [List.drop_succ_cons]
      rw [ih k2 i d]
      have : k2 + 1 + i = (k2 + i) + 1 := by omega
      rw [this, List.getD_cons_succ]

theorem jsSlice_eq (l : List α) (s e : Int) (hs0 : 0 ≤ s) (hse : s ≤ (l.length : Int))
    (he0 : 0 ≤ e) (hel : e ≤ (l.length : Int)) :
    jsSlice l s e = (l.take e.toNat).drop s.toNat := by
  unfold jsSlice
  dsimp only
  rw [if_neg (by omega), if_neg (by omega)]
  rw [min_eq_left hse, min_eq_left hel]

theorem length_mapIdxGo (f : Nat → α → β) :
    ∀ (i : Nat) (l : List α), (mapIdxGo f i l).length = l.length := by
  intro i l
  induction l generalizing i with
  | nil => rfl
  | cons x xs ih => simp [mapIdxGo, ih]

/-- Claim C8, counterexample: for the inverted bounds `startLine = 5`,
`endLine = 2` (clamped to `start = 4 > endI = 1`), every line of the
five-line input is outside the requested range, yet the output is not the
input: `slice(0, 4) ++ slice(4, 2) ++ slice(2)` duplicates lines 3 and 4. -/
theorem boundedReplace_frame_cex :
    computeNewContent (strL "a\nb\nc\nd\ne") (strL "x") (strL "y") (some 5) (some 2) none none
      = strL "a\nb\nc\nd\nc\nd\ne"
    ∧ computeNewContent (strL "a\nb\nc\nd\ne") (strL "x") (strL "y") (some 5) (some 2) none none
      ≠ strL "a\nb\nc\nd\ne" := by
  refine ⟨by decide, by decide⟩

theorem length_mapWithIndex (f : Nat → α → β) (l : List α) :
    (mapWithIndex f l).length = l.length :=
  length_mapIdxGo f 0 l

theorem frame_aux (L B : List α) (sN eN : Nat)
    (hB : B.length = eN - sN) (hse : sN ≤ eN) (heL : eN ≤ L.length) :
    (L.take sN ++ B ++ L.drop eN).length = L.length
    ∧ ∀ (i : Nat) (d : α), i < L.length → (i < sN ∨ eN ≤ i) →
      (L.take sN ++ B ++ L.drop eN).getD i d = L.getD i d := by
  constructor
  · simp only [List.length_append, List.length_take, List.length_drop]
    omega
  · intro i d hi hio
    rcases hio with h1 | h2
    · have hi2 : i < (L.take sN).length := by
        simp only [List.length_take]
        omega
      rw [List.append_assoc, List.getD_append _ _ _ _ hi2]
      exact getD_take_of_lt L sN i d h1
    · have hlen : (L.take sN ++ B).length = eN := by
        simp only [List.length_append, List.length_take]
        omega
      have hge : (L.take sN ++ B).length ≤ i := by
        rw [hlen]
        omega
      rw [List.getD_append_right _ _ _ _ hge, hlen, getD_drop_add]
      congr 1
      omega

/-- Claim C8 (amended): whenever the clamped bounds are ordered
(`start ≤ endI`; this holds in particular for every well-formed request
with `startLine ≤ endLine` inside the file), the bounded replace preserves
the number of lines and leaves every line outside the clamped range
byte-for-byte identical, at its original position; when the clamped start
exceeds the clamped end (e.g. inverted bounds), the `slice` arithmetic
duplicates the lines between the two clamped indices instead. -/
theorem boundedReplace_frame :
    ∀ (lines : List Str) (pat repl : Str) (sb eb scB ecB : Option Int),
      max ((sb.getD 1) - 1) 0
          ≤ min ((eb.getD (lines.length : Int)) - 1) ((lines.length : Int) - 1) →
      (boundedReplaceLines lines pat repl sb eb scB ecB).length = lines.length
      ∧ ∀ (i : Nat) (d : Str), i < lines.length →
          ((i : Int) < max ((sb.getD 1) - 1) 0
            ∨ min ((eb.getD (lines.length : Int)) - 1) ((lines.length : Int) - 1) < (i : Int)) →
          (boundedReplaceLines lines pat repl sb eb scB ecB).getD i d = lines.getD i d := by
  intro lines pat repl sb eb scB ecB h
  have hs0 : (0 : Int) ≤ max ((sb.getD 1) - 1) 0 := le_max_right _ _
  have hE : min ((eb.getD (lines.length : Int)) - 1) ((lines.length : Int) - 1)
      ≤ (lines.length : Int) - 1 := min_le_right _ _
  have hbef : jsSlice lines 0 (max ((sb.getD 1) - 1) 0)
      = lines.take (max ((sb.getD 1) - 1) 0).toNat := by
    rw [jsSlice_eq lines 0 _ (by omega) (by omega) hs0 (by omega)]
    simp
  have haft : jsSliceFrom lines
        (min ((eb.getD (lines.length : Int)) - 1) ((lines.length : Int) - 1) + 1)
      = lines.drop
          (min ((eb.getD (lines.length : Int)) - 1) ((lines.length : Int) - 1) + 1).toNat := by
    unfold jsSliceFrom
    rw [jsSlice_eq lines _ _ (by omega) (by omega) (by omega) (by omega)]
    rw [Int.toNat_natCast, List.take_length]
  have htar : (jsSlice lines (max ((sb.getD 1) - 1) 0)
        (min ((eb.getD (lines.length : Int)) - 1) ((lines.length : Int) - 1) + 1)).length
      = (min ((eb.getD (lines.length : Int)) - 1) ((lines.length : Int) - 1) + 1).toNat
          - (max ((sb.getD 1) - 1) 0).toNat := by
    rw [jsSlice_eq lines _ _ hs0 (by omega) (by omega) (by omega)]
    simp only [List.length_drop, List.length_take]
    omega
  simp only [boundedReplaceLines]
  rw [hbef, haft]
  constructor
  · refine (frame_aux lines _ _ _ ?_ ?_ ?_).1
    · rw [length_mapWithIndex]
      exact htar
    · omega
    · omega
  · intro i d hi hout
    refine (frame_aux lines _ _ _ ?_ ?_ ?_).2 i d hi ?_
    · rw [length_mapWithIndex]
      exact htar
    · omega
    · omega
    · rcases hout with h1 | h2
      · left
        omega
      · right
        omega

theorem boundedReplace_frame_witness :
    (boundedReplaceLines [strL "a", strL "b"] (strL "a") (strL "z")
        (some 1) (some 1) none none).length = ([strL "a", strL "b"] : List Str).length :=
  (boundedReplace_frame [strL "a", strL "b"] (strL "a") (strL "z")
    (some 1) (some 1) none none (by decide)).1
